import Mathlib

/-!
Verification of the distribution-matching and adjustment engine of the
uamutations crate.

The Rust sources are shallowly embedded over exact rational arithmetic:
f64 values become ℚ, ndarray Array2 matrices become row-major lists of
rows, fallible operations (assert / unwrap panics) become Option, and the
stable comparison sorts of the standard library are modelled by
List.insertionSort over the lexicographic (key, original index) relation,
which produces exactly the output of a stable sort by key.
-/

namespace UAMut

/-- A variable matrix: one row per variable, one column per observation
(ndarray Array2 of f64, modelled over ℚ). -/
abbrev Mat : Type := List (List ℚ)

/-- Number of rows (variables). -/
def nrows (m : Mat) : ℕ := m.length

/-- Number of columns (observations), read off the first row as ndarray dim does
for the well-formed matrices the program builds. -/
def ncols (m : Mat) : ℕ := (m.headD []).length

/-- The dimension pair, as compared by the assert_eq on Array2 dim. -/
def matDim (m : Mat) : ℕ × ℕ := (nrows m, ncols m)

/-- Array2 is_empty: the element count nrows * ncols is zero. -/
def matIsEmpty (m : Mat) : Prop := nrows m = 0 ∨ ncols m = 0

instance (m : Mat) : Decidable (matIsEmpty m) := by unfold matIsEmpty; infer_instance

/-- Row 0 of a matrix, the primary mutation variable. -/
def row0 (m : Mat) : List ℚ := m.headD []

/-- Column o of a matrix: the multi-dimensional vector of observation o. -/
def colv (m : Mat) (o : ℕ) : List ℚ := m.map (fun r => r.getD o 0)

/- ## Ranking utility (get_ordering_index of calculate_dists.rs and vector_fns.rs) -/

/-- The comparison key of the Rust comparator: the value itself, or its
absolute value when is_abs is set. -/
def sortKey (is_abs : Bool) (q : ℚ) : ℚ := if is_abs then |q| else q

/-- The sorting relation on (original index, value) pairs that characterises the
stable sort_by of the source: strictly smaller key first (strictly larger when
descending), ties broken by original index. A stable sort of an enumerated
sequence by key equals the sort by this total relation, because the original
indices are strictly increasing before sorting. -/
def oiRel (desc is_abs : Bool) (a b : ℕ × ℚ) : Prop :=
  (if desc then sortKey is_abs b.2 < sortKey is_abs a.2
   else sortKey is_abs a.2 < sortKey is_abs b.2)
  ∨ (sortKey is_abs a.2 = sortKey is_abs b.2 ∧ a.1 ≤ b.1)

instance (desc is_abs : Bool) : DecidableRel (oiRel desc is_abs) := fun _ _ => by
  unfold oiRel; infer_instance

instance (desc is_abs : Bool) : IsTotal (ℕ × ℚ) (oiRel desc is_abs) := by
  constructor
  intro a b
  rcases lt_trichotomy (sortKey is_abs a.2) (sortKey is_abs b.2) with h | h | h
  · cases desc with
    | false => exact Or.inl (Or.inl (by simpa using h))
    | true => exact Or.inr (Or.inl (by simpa using h))
  · rcases Nat.le_total a.1 b.1 with h1 | h1
    · exact Or.inl (Or.inr ⟨h, h1⟩)
    · exact Or.inr (Or.inr ⟨h.symm, h1⟩)
  · cases desc with
    | false => exact Or.inr (Or.inl (by simpa using h))
    | true => exact Or.inl (Or.inl (by simpa using h))

instance (desc is_abs : Bool) : IsTrans (ℕ × ℚ) (oiRel desc is_abs) := by
  constructor
  intro a b c hab hbc
  cases desc with
  | false =>
    simp only [oiRel, if_neg (by simp : ¬ (false = true))] at hab hbc ⊢
    rcases hab with hab | ⟨hab, hab'⟩ <;> rcases hbc with hbc | ⟨hbc, hbc'⟩
    · exact Or.inl (hab.trans hbc)
    · exact Or.inl (hbc ▸ hab)
    · exact Or.inl (hab ▸ hbc)
    · exact Or.inr ⟨hab.trans hbc, hab'.trans hbc'⟩
  | true =>
    simp only [oiRel, if_pos rfl] at hab hbc ⊢
    rcases hab with hab | ⟨hab, hab'⟩ <;> rcases hbc with hbc | ⟨hbc, hbc'⟩
    · exact Or.inl (hbc.trans hab)
    · exact Or.inl (hbc ▸ hab)
    · exact Or.inl (hab ▸ hbc)
    · exact Or.inr ⟨hab.trans hbc, hab'.trans hbc'⟩

/-- The enumerated value sequence after the stable sort_by of the comparator
selected by the two flags. -/
def sortedPairs (desc is_abs : Bool) (vals : List ℚ) : List (ℕ × ℚ) :=
  List.insertionSort (oiRel desc is_abs) vals.enum

theorem sortedPairs_perm (desc is_abs : Bool) (vals : List ℚ) :
    (sortedPairs desc is_abs vals).Perm vals.enum :=
  List.perm_insertionSort _ _

theorem sortedPairs_sorted (desc is_abs : Bool) (vals : List ℚ) :
    List.Sorted (oiRel desc is_abs) (sortedPairs desc is_abs vals) :=
  List.sorted_insertionSort _ _

theorem length_sortedPairs (desc is_abs : Bool) (vals : List ℚ) :
    (sortedPairs desc is_abs vals).length = vals.length := by
  rw [(sortedPairs_perm desc is_abs vals).length_eq, List.enum_length]

theorem mem_sortedPairs (desc is_abs : Bool) (vals : List ℚ) {p : ℕ × ℚ}
    (hp : p ∈ sortedPairs desc is_abs vals) :
    p.1 < vals.length ∧ vals.getD p.1 0 = p.2 := by
  have hmem : p ∈ vals.enum := (sortedPairs_perm desc is_abs vals).mem_iff.mp hp
  have h := List.mem_enum_iff_getElem?.mp hmem
  have hlt : p.1 < vals.length := by
    by_contra hge
    rw [List.getElem?_eq_none (Nat.le_of_not_lt hge)] at h
    exact Option.noConfusion h
  exact ⟨hlt, by rw [List.getD_eq_getElem?_getD, h]; rfl⟩

/-- The index_sort component of get_ordering_index: original index of the item
at each sorted rank. -/
def index_sort (desc is_abs : Bool) (vals : List ℚ) : List ℕ :=
  (sortedPairs desc is_abs vals).map Prod.fst

theorem index_sort_perm_range (desc is_abs : Bool) (vals : List ℚ) :
    (index_sort desc is_abs vals).Perm (List.range vals.length) := by
  have h := (sortedPairs_perm desc is_abs vals).map Prod.fst
  rwa [List.enum_map_fst] at h

theorem length_index_sort (desc is_abs : Bool) (vals : List ℚ) :
    (index_sort desc is_abs vals).length = vals.length := by
  rw [(index_sort_perm_range desc is_abs vals).length_eq, List.length_range]

theorem nodup_index_sort (desc is_abs : Bool) (vals : List ℚ) :
    (index_sort desc is_abs vals).Nodup :=
  (index_sort_perm_range desc is_abs vals).nodup_iff.mpr (List.nodup_range _)

/-- The index_reorder component of get_ordering_index: the loop writes rank i
into slot index_sort[i] of a zero-initialised vector. -/
def index_reorder (desc is_abs : Bool) (vals : List ℚ) : List ℕ :=
  (index_sort desc is_abs vals).enum.foldl
    (fun acc p => acc.set p.2 p.1) (List.replicate vals.length 0)

theorem foldl_set_length (ws : List (ℕ × ℕ)) (acc : List ℕ) :
    (ws.foldl (fun a p => a.set p.2 p.1) acc).length = acc.length := by
  induction ws generalizing acc with
  | nil => rfl
  | cons w rest ih => rw [List.foldl_cons, ih, List.length_set]

theorem foldl_set_untouched (ws : List (ℕ × ℕ)) (acc : List ℕ) (k : ℕ)
    (hk : k ∉ ws.map Prod.snd) :
    (ws.foldl (fun a p => a.set p.2 p.1) acc)[k]? = acc[k]? := by
  induction ws generalizing acc with
  | nil => rfl
  | cons w rest ih =>
    simp only [List.map_cons, List.mem_cons, not_or] at hk
    rw [List.foldl_cons, ih _ hk.2, List.getElem?_set_ne (fun h => hk.1 h.symm)]

theorem foldl_set_found (ws : List (ℕ × ℕ)) (acc : List ℕ) {i idx : ℕ}
    (hmem : (i, idx) ∈ ws) (hnd : (ws.map Prod.snd).Nodup) (hidx : idx < acc.length) :
    (ws.foldl (fun a p => a.set p.2 p.1) acc)[idx]? = some i := by
  induction ws generalizing acc with
  | nil => exact absurd hmem (List.not_mem_nil _)
  | cons w rest ih =>
    simp only [List.map_cons, List.nodup_cons] at hnd
    rcases List.mem_cons.mp hmem with heq | htail
    · have hw2 : w.2 = idx := by rw [← heq]
      have hw1 : w.1 = i := by rw [← heq]
      rw [List.foldl_cons, foldl_set_untouched _ _ _ (by rw [hw2] at hnd; exact hnd.1),
        hw2, hw1, List.getElem?_set_self hidx]
    · rw [List.foldl_cons]
      exact ih _ htail hnd.2 (by rwa [List.length_set])

theorem length_index_reorder (desc is_abs : Bool) (vals : List ℚ) :
    (index_reorder desc is_abs vals).length = vals.length := by
  rw [index_reorder, foldl_set_length, List.length_replicate]

theorem index_sort_getD_lt (desc is_abs : Bool) (vals : List ℚ) {i : ℕ}
    (hi : i < vals.length) :
    (index_sort desc is_abs vals).getD i 0 < vals.length := by
  have hi' : i < (index_sort desc is_abs vals).length := by
    rwa [length_index_sort]
  have hmem : (index_sort desc is_abs vals).getD i 0 ∈ index_sort desc is_abs vals := by
    rw [List.getD_eq_getElem?_getD, List.getElem?_eq_getElem hi']
    exact List.getElem_mem _
  have := (index_sort_perm_range desc is_abs vals).mem_iff.mp hmem
  exact List.mem_range.mp this

theorem index_reorder_index_sort (desc is_abs : Bool) (vals : List ℚ) {i : ℕ}
    (hi : i < vals.length) :
    (index_reorder desc is_abs vals).getD ((index_sort desc is_abs vals).getD i 0) 0 = i := by
  set s := index_sort desc is_abs vals with hs
  have hi' : i < s.length := by rw [hs, length_index_sort]; exact hi
  have hsd : s.getD i 0 = s[i] := by
    rw [List.getD_eq_getElem?_getD, List.getElem?_eq_getElem hi']; rfl
  have hmem : (i, s[i]) ∈ s.enum := by
    rw [List.mem_enum_iff_getElem?]
    exact List.getElem?_eq_getElem hi'
  have hnd : (s.enum.map Prod.snd).Nodup := by
    rw [List.enum_map_snd]; exact nodup_index_sort desc is_abs vals
  have hlt : s[i] < (List.replicate vals.length (0:ℕ)).length := by
    rw [List.length_replicate, ← hsd]
    exact index_sort_getD_lt desc is_abs vals hi
  have := foldl_set_found s.enum (List.replicate vals.length 0) hmem hnd hlt
  rw [index_reorder, ← hs, List.getD_eq_getElem?_getD, hsd, this]; rfl

theorem index_sort_index_reorder (desc is_abs : Bool) (vals : List ℚ) {k : ℕ}
    (hk : k < vals.length) :
    (index_sort desc is_abs vals).getD ((index_reorder desc is_abs vals).getD k 0) 0 = k := by
  set s := index_sort desc is_abs vals with hs
  have hmem : k ∈ s :=
    (index_sort_perm_range desc is_abs vals).mem_iff.mpr (List.mem_range.mpr hk)
  obtain ⟨i, hi, hik⟩ := List.mem_iff_getElem.mp hmem
  have hi' : i < vals.length := by rw [← length_index_sort desc is_abs vals]; exact hi
  have hsd : s.getD i 0 = k := by
    rw [List.getD_eq_getElem?_getD, List.getElem?_eq_getElem hi, hik]; rfl
  have hrev := index_reorder_index_sort desc is_abs vals hi'
  rw [← hs] at hrev
  rw [hsd] at hrev
  rw [hrev, hsd]

theorem sortedPairs_getD_of_lt (desc is_abs : Bool) (vals : List ℚ) {i : ℕ}
    (hi : i < vals.length) :
    (sortedPairs desc is_abs vals).getD i (0, 0)
      = (sortedPairs desc is_abs vals).get
          ⟨i, by rw [length_sortedPairs]; exact hi⟩ := by
  have hi' : i < (sortedPairs desc is_abs vals).length := by
    rw [length_sortedPairs]; exact hi
  rw [List.getD_eq_getElem?_getD, List.getElem?_eq_getElem hi']
  rfl

theorem sortedPairs_rel_of_lt (desc is_abs : Bool) (vals : List ℚ) {i j : ℕ}
    (hij : i < j) (hj : j < vals.length) :
    oiRel desc is_abs ((sortedPairs desc is_abs vals).getD i (0, 0))
      ((sortedPairs desc is_abs vals).getD j (0, 0)) := by
  rw [sortedPairs_getD_of_lt desc is_abs vals (hij.trans hj),
    sortedPairs_getD_of_lt desc is_abs vals hj]
  exact (sortedPairs_sorted desc is_abs vals).rel_get_of_lt hij

theorem index_sort_getD_fst (desc is_abs : Bool) (vals : List ℚ) {i : ℕ}
    (hi : i < vals.length) :
    (index_sort desc is_abs vals).getD i 0
      = ((sortedPairs desc is_abs vals).getD i (0, 0)).1 := by
  have hi' : i < (sortedPairs desc is_abs vals).length := by
    rw [length_sortedPairs]; exact hi
  rw [index_sort, List.getD_eq_getElem?_getD, List.getElem?_map,
    List.getElem?_eq_getElem hi', List.getD_eq_getElem?_getD,
    List.getElem?_eq_getElem hi']
  rfl

theorem index_sort_vals_getD (desc is_abs : Bool) (vals : List ℚ) {i : ℕ}
    (hi : i < vals.length) :
    vals.getD ((index_sort desc is_abs vals).getD i 0) 0
      = ((sortedPairs desc is_abs vals).getD i (0, 0)).2 := by
  have hi' : i < (sortedPairs desc is_abs vals).length := by
    rw [length_sortedPairs]; exact hi
  have hmem : (sortedPairs desc is_abs vals).getD i (0, 0) ∈ sortedPairs desc is_abs vals := by
    rw [List.getD_eq_getElem?_getD, List.getElem?_eq_getElem hi']
    exact List.getElem_mem _
  rw [index_sort_getD_fst desc is_abs vals hi]
  exact (mem_sortedPairs desc is_abs vals hmem).2

theorem sortedPairs_fst_ne (desc is_abs : Bool) (vals : List ℚ) {i j : ℕ}
    (hij : i ≠ j) (hi : i < vals.length) (hj : j < vals.length) :
    ((sortedPairs desc is_abs vals).getD i (0, 0)).1
      ≠ ((sortedPairs desc is_abs vals).getD j (0, 0)).1 := by
  intro heq
  have hnd : ((sortedPairs desc is_abs vals).map Prod.fst).Nodup :=
    nodup_index_sort desc is_abs vals
  have hi' : i < ((sortedPairs desc is_abs vals).map Prod.fst).length := by
    rw [List.length_map, length_sortedPairs]; exact hi
  have hj' : j < ((sortedPairs desc is_abs vals).map Prod.fst).length := by
    rw [List.length_map, length_sortedPairs]; exact hj
  apply hij
  rw [sortedPairs_getD_of_lt desc is_abs vals hi, sortedPairs_getD_of_lt desc is_abs vals hj]
    at heq
  have hmap : ((sortedPairs desc is_abs vals).map Prod.fst).get ⟨i, hi'⟩
      = ((sortedPairs desc is_abs vals).map Prod.fst).get ⟨j, hj'⟩ := by
    rw [List.get_eq_getElem, List.get_eq_getElem, List.getElem_map, List.getElem_map]
    exact heq
  rw [List.get_eq_getElem, List.get_eq_getElem] at hmap
  exact (List.Nodup.getElem_inj_iff hnd).mp hmap

/-- Stability of the sort: within a tie of the comparison key, sorted ranks keep
the original relative order. -/
theorem index_sort_stable (desc is_abs : Bool) (vals : List ℚ) {i j : ℕ}
    (hij : i < j) (hj : j < vals.length)
    (htie : sortKey is_abs (vals.getD ((index_sort desc is_abs vals).getD i 0) 0)
          = sortKey is_abs (vals.getD ((index_sort desc is_abs vals).getD j 0) 0)) :
    (index_sort desc is_abs vals).getD i 0 < (index_sort desc is_abs vals).getD j 0 := by
  have hi : i < vals.length := hij.trans hj
  have hrel := sortedPairs_rel_of_lt desc is_abs vals hij hj
  rw [index_sort_vals_getD desc is_abs vals hi, index_sort_vals_getD desc is_abs vals hj]
    at htie
  rw [index_sort_getD_fst desc is_abs vals hi, index_sort_getD_fst desc is_abs vals hj]
  have hne := sortedPairs_fst_ne desc is_abs vals (Nat.ne_of_lt hij) hi hj
  rcases hrel with hlt | ⟨_, hle⟩
  · exfalso
    cases desc with
    | false =>
      rw [if_neg (by simp : ¬ (false = true)), htie] at hlt
      exact absurd hlt (lt_irrefl _)
    | true =>
      rw [if_pos rfl, htie] at hlt
      exact absurd hlt (lt_irrefl _)
  · omega

/-- Sorted output values: ranks are non-decreasing in key for ascending mode and
non-increasing for descending mode. -/
theorem index_sort_sorted_key (desc is_abs : Bool) (vals : List ℚ) {i j : ℕ}
    (hij : i < j) (hj : j < vals.length) :
    if desc then
      sortKey is_abs (vals.getD ((index_sort desc is_abs vals).getD j 0) 0)
        ≤ sortKey is_abs (vals.getD ((index_sort desc is_abs vals).getD i 0) 0)
    else
      sortKey is_abs (vals.getD ((index_sort desc is_abs vals).getD i 0) 0)
        ≤ sortKey is_abs (vals.getD ((index_sort desc is_abs vals).getD j 0) 0) := by
  have hi : i < vals.length := hij.trans hj
  have hrel := sortedPairs_rel_of_lt desc is_abs vals hij hj
  rw [index_sort_vals_getD desc is_abs vals hi, index_sort_vals_getD desc is_abs vals hj]
  cases desc with
  | false =>
    rw [if_neg (by simp : ¬ (false = true))]
    rcases hrel with hlt | ⟨heq, _⟩
    · rw [if_neg (by simp : ¬ (false = true))] at hlt; exact le_of_lt hlt
    · exact le_of_eq heq
  | true =>
    rw [if_pos rfl]
    rcases hrel with hlt | ⟨heq, _⟩
    · rw [if_pos rfl] at hlt; exact le_of_lt hlt
    · exact le_of_eq heq.symm

/-- The pair of permutation vectors returned by get_ordering_index of
calculate_dists.rs. -/
structure OrderingIndex where
  index_sort : List ℕ
  index_reorder : List ℕ

/-- get_ordering_index of calculate_dists.rs: the stable sort_by of the
enumerated values by the comparator chosen by the flags, then the loop
building the inverse index. -/
def get_ordering_index (vals : List ℚ) (desc is_abs : Bool) : OrderingIndex :=
  { index_sort := index_sort desc is_abs vals
    index_reorder := index_reorder desc is_abs vals }

/-- The guard actually checked by both calculate_dists variants is equivalent
to the failure condition of the spec: values2 being empty while values1 is not
forces a dimension mismatch. -/
theorem guard_cond_iff (values1 values2 : Mat) :
    (matIsEmpty values1 ∨ matDim values1 ≠ matDim values2)
      ↔ (matIsEmpty values1 ∨ matIsEmpty values2 ∨ matDim values1 ≠ matDim values2) := by
  constructor
  · intro h
    rcases h with h | h
    · exact Or.inl h
    · exact Or.inr (Or.inr h)
  · intro h
    rcases h with h | h | h
    · exact Or.inl h
    · by_cases hd : matDim values1 = matDim values2
      · left
        have h1 : nrows values1 = nrows values2 := congrArg Prod.fst hd
        have h2 : ncols values1 = ncols values2 := congrArg Prod.snd hd
        rcases h with h0 | h0
        · exact Or.inl (by rw [h1]; exact h0)
        · exact Or.inr (by rw [h2]; exact h0)
      · exact Or.inr hd
    · exact Or.inr h

namespace CalcDistsDP

/-- Read entry (i, j) of a dynamic-programming cost table. -/
def get2 (t : List (List ℚ)) (i j : ℕ) : ℚ := (t.getD i []).getD j 0

/-- Read entry (i, j) of the chosen-pairs table. -/
def get2p (t : List (List (ℚ × ℚ))) (i j : ℕ) : ℚ × ℚ := (t.getD i []).getD j (0, 0)

/-- Write entry (i, j) of a table. -/
def set2 {α : Type} (t : List (List α)) (i j : ℕ) (v : α) : List (List α) :=
  t.set i ((t.getD i []).set j v)

/-- One iteration of the nested dp loop of reorder_min_diff (loop body at
calculate_dists.rs lines 167-180): arr1_with_pos[i-1].0 is arr1[i-1] and the
tables were zero-initialised. -/
def dpStep (arr1 arr2 : List ℚ) (st : List (List ℚ) × List (List (ℚ × ℚ)))
    (i j : ℕ) : List (List ℚ) × List (List (ℚ × ℚ)) :=
  let dp := st.1
  let pairs := st.2
  let cost := get2 dp (i-1) (j-1) + |arr1.getD (i-1) 0 - arr2.getD (j-1) 0|
  if cost < min (get2 dp (i-1) j) (get2 dp i (j-1)) then
    (set2 dp i j cost, set2 pairs i j (arr1.getD (i-1) 0, arr2.getD (j-1) 0))
  else if get2 dp (i-1) j < get2 dp i (j-1) then
    (set2 dp i j (get2 dp (i-1) j), set2 pairs i j (get2p pairs (i-1) j))
  else
    (set2 dp i j (get2 dp i (j-1)), set2 pairs i j (get2p pairs i (j-1)))

/-- The filled dp and pairs tables of reorder_min_diff: both are
(n+1) x (n+1), initialised with 0.0 and (0.0, 0.0), then filled by the nested
loops for i in 1..=n, for j in 1..=n. -/
def dpTables (arr1 arr2 : List ℚ) : List (List ℚ) × List (List (ℚ × ℚ)) :=
  ((List.range arr1.length).map (· + 1)).foldl
    (fun st i =>
      ((List.range arr1.length).map (· + 1)).foldl
        (fun st2 j => dpStep arr1 arr2 st2 i j) st)
    (List.replicate (arr1.length + 1) (List.replicate (arr1.length + 1) (0 : ℚ)),
      List.replicate (arr1.length + 1)
        (List.replicate (arr1.length + 1) ((0 : ℚ), (0 : ℚ))))

/-- The backtracking loop of reorder_min_diff: while i > 0 and j > 0, when
pairs[i][j] differs from pairs[i-1][j] write its second component into slot
arr1_with_pos[i-1].1 = i-1 and decrement j; decrement i every iteration. -/
def backtrack (pairs : List (List (ℚ × ℚ))) : ℕ → ℕ → List ℚ → List ℚ
  | 0, _, acc => acc
  | i + 1, j, acc =>
    if j = 0 then acc
    else if get2p pairs (i + 1) j ≠ get2p pairs i j then
      backtrack pairs i (j - 1) (acc.set i (get2p pairs (i + 1) j).2)
    else backtrack pairs i j acc

/-- reorder_min_diff of calculate_dists.rs: fill the dp and pairs tables, then
backtrack from (n, n) into a zero-initialised output vector. -/
def reorder_min_diff (arr1 arr2 : List ℚ) : List ℚ :=
  backtrack (dpTables arr1 arr2).2 arr1.length arr1.length
    (List.replicate arr1.length 0)

theorem set_replicate_self {α : Type} (a : α) :
    ∀ (m j : ℕ), (List.replicate m a).set j a = List.replicate m a := by
  intro m
  induction m with
  | zero => intro j; rfl
  | succ m ih =>
    intro j
    cases j with
    | zero => rfl
    | succ j =>
      rw [List.replicate_succ, List.set_cons_succ, ih]

theorem get2_replicate (m i j : ℕ) :
    get2 (List.replicate m (List.replicate m (0 : ℚ))) i j = 0 := by
  simp only [get2, List.getD_eq_getElem?_getD]
  rw [List.getElem?_replicate]
  by_cases hi : i < m
  · rw [if_pos hi, Option.getD_some, List.getElem?_replicate]
    by_cases hj : j < m
    · rw [if_pos hj]; rfl
    · rw [if_neg hj]; rfl
  · rw [if_neg hi, Option.getD_none]
    rfl

theorem get2p_replicate (m i j : ℕ) :
    get2p (List.replicate m (List.replicate m ((0 : ℚ), (0 : ℚ)))) i j = (0, 0) := by
  simp only [get2p, List.getD_eq_getElem?_getD]
  rw [List.getElem?_replicate]
  by_cases hi : i < m
  · rw [if_pos hi, Option.getD_some, List.getElem?_replicate]
    by_cases hj : j < m
    · rw [if_pos hj]; rfl
    · rw [if_neg hj]; rfl
  · rw [if_neg hi, Option.getD_none]
    rfl

theorem set2_replicate_self {α : Type} (a : α) (m i j : ℕ) :
    set2 (List.replicate m (List.replicate m a)) i j a
      = List.replicate m (List.replicate m a) := by
  rw [set2, List.getD_eq_getElem?_getD, List.getElem?_replicate]
  by_cases hi : i < m
  · rw [if_pos hi, Option.getD_some, set_replicate_self]
    exact set_replicate_self (List.replicate m a) m i
  · rw [if_neg hi, Option.getD_none]
    apply List.set_eq_of_length_le
    rw [List.length_replicate]
    omega

/-- The strict less-than of the dp recurrence is never satisfied: its left side
is a non-negative cost and its right side a minimum of entries of the
zero-initialised table, so every iteration takes a skip branch and rewrites
the 0 and (0, 0) entries in place. The tables therefore stay at their
initialisation for every input. -/
theorem dpStep_fixed (arr1 arr2 : List ℚ) (n i j : ℕ) :
    dpStep arr1 arr2
      (List.replicate n (List.replicate n (0 : ℚ)),
        List.replicate n (List.replicate n ((0 : ℚ), (0 : ℚ)))) i j
      = (List.replicate n (List.replicate n (0 : ℚ)),
        List.replicate n (List.replicate n ((0 : ℚ), (0 : ℚ)))) := by
  rw [dpStep]
  simp only [get2_replicate, get2p_replicate, zero_add, min_self]
  rw [if_neg (by
    intro habs
    exact absurd (abs_nonneg (arr1.getD (i - 1) 0 - arr2.getD (j - 1) 0))
      (not_le.mpr habs))]
  rw [if_neg (lt_irrefl 0), set2_replicate_self, set2_replicate_self]

theorem dpTables_zero (arr1 arr2 : List ℚ) :
    dpTables arr1 arr2
      = (List.replicate (arr1.length + 1) (List.replicate (arr1.length + 1) (0 : ℚ)),
        List.replicate (arr1.length + 1)
          (List.replicate (arr1.length + 1) ((0 : ℚ), (0 : ℚ)))) := by
  rw [dpTables]
  have hinner : ∀ (i : ℕ) (js : List ℕ),
      js.foldl (fun st2 j => dpStep arr1 arr2 st2 i j)
        (List.replicate (arr1.length + 1) (List.replicate (arr1.length + 1) (0 : ℚ)),
          List.replicate (arr1.length + 1)
            (List.replicate (arr1.length + 1) ((0 : ℚ), (0 : ℚ))))
        = (List.replicate (arr1.length + 1) (List.replicate (arr1.length + 1) (0 : ℚ)),
          List.replicate (arr1.length + 1)
            (List.replicate (arr1.length + 1) ((0 : ℚ), (0 : ℚ)))) := by
    intro i js
    induction js with
    | nil => rfl
    | cons j jrest ihj => rw [List.foldl_cons, dpStep_fixed, ihj]
  have houter : ∀ (idxs : List ℕ),
      idxs.foldl
        (fun st i =>
          ((List.range arr1.length).map (· + 1)).foldl
            (fun st2 j => dpStep arr1 arr2 st2 i j) st)
        (List.replicate (arr1.length + 1) (List.replicate (arr1.length + 1) (0 : ℚ)),
          List.replicate (arr1.length + 1)
            (List.replicate (arr1.length + 1) ((0 : ℚ), (0 : ℚ))))
        = (List.replicate (arr1.length + 1) (List.replicate (arr1.length + 1) (0 : ℚ)),
          List.replicate (arr1.length + 1)
            (List.replicate (arr1.length + 1) ((0 : ℚ), (0 : ℚ)))) := by
    intro idxs
    induction idxs with
    | nil => rfl
    | cons i rest ih => rw [List.foldl_cons, hinner, ih]
  exact houter _

theorem backtrack_zero (n : ℕ) :
    ∀ (i j : ℕ) (acc : List ℚ),
      backtrack (List.replicate n (List.replicate n ((0 : ℚ), (0 : ℚ)))) i j acc
        = acc := by
  intro i
  induction i with
  | zero => intro j acc; rfl
  | succ i ih =>
    intro j acc
    rw [backtrack]
    by_cases hj : j = 0
    · rw [if_pos hj]
    · rw [if_neg hj, if_neg (by rw [get2p_replicate, get2p_replicate]; simp), ih]

/-- The central defect of the dp variant: for every pair of inputs,
reorder_min_diff returns the zero vector, never a reordering of its second
argument. -/
theorem reorder_min_diff_zero (arr1 arr2 : List ℚ) :
    reorder_min_diff arr1 arr2 = List.replicate arr1.length 0 := by
  rw [reorder_min_diff]
  have h := dpTables_zero arr1 arr2
  rw [h]
  exact backtrack_zero _ _ _ _

/-- calculate_dists of calculate_dists.rs: assert the inputs non-empty and of
equal dimension, sort row 0 of values1 by the ascending ordering index, sort
row 0 of values2 ascending, reorder the latter with reorder_min_diff, take
(element-wise) b - a or (b - a) / a, and undo the permutation with
index_reorder. -/
def calculate_dists (values1 values2 : Mat) (absolute : Bool) : Option (List ℚ) :=
  if matIsEmpty values1 ∨ matDim values1 ≠ matDim values2 then none
  else
    let v1 := row0 values1
    let v2 := row0 values2
    let so := get_ordering_index v1 false false
    let values1_sorted := so.index_sort.map (fun i => v1.getD i 0)
    let values2_sorted := List.insertionSort (· ≤ ·) v2
    let values2_re := reorder_min_diff values1_sorted values2_sorted
    let differences := values1_sorted.zipWith
      (fun a b => if absolute then b - a else (b - a) / a) values2_re
    some (so.index_reorder.map (fun i => differences.getD i 0))

/-- The dp variant fails exactly when an input is empty or the dimensions
differ; past the asserts it always produces a vector. -/
theorem dp_calculate_dists_none_iff (values1 values2 : Mat) (absolute : Bool) :
    calculate_dists values1 values2 absolute = none
      ↔ (matIsEmpty values1 ∨ matIsEmpty values2 ∨ matDim values1 ≠ matDim values2) := by
  rw [← guard_cond_iff]
  by_cases hg : matIsEmpty values1 ∨ matDim values1 ≠ matDim values2
  · rw [calculate_dists, if_pos hg]
    simp [hg]
  · rw [calculate_dists, if_neg hg]
    simp [hg]

/-- Every produced output vector has the length of the inputs. -/
theorem calculate_dists_length (values1 values2 : Mat) (absolute : Bool)
    {out : List ℚ} (h : calculate_dists values1 values2 absolute = some out) :
    out.length = ncols values1 := by
  by_cases hg : matIsEmpty values1 ∨ matDim values1 ≠ matDim values2
  · rw [calculate_dists, if_pos hg] at h
    exact Option.noConfusion h
  · rw [calculate_dists, if_neg hg] at h
    cases h
    rw [List.length_map, get_ordering_index, length_index_reorder]
    rfl

end CalcDistsDP

namespace VectorFns

/-- get_ordering_index of vector_fns.rs: only the sort permutation is
returned. -/
def get_ordering_index (vals : List ℚ) (desc is_abs : Bool) : List ℕ :=
  index_sort desc is_abs vals

/-- Squared Euclidean distance between observation i of values1 and observation
j of values2 in the full variable space. The source compares square roots of
these sums; the square root is strictly monotone on non-negative values, so
every comparison dist < min_dist has the same outcome on the squares and the
selected index is identical. -/
def dist2 (values1 values2 : Mat) (i j : ℕ) : ℚ :=
  ((colv values1 i).zipWith (fun a b => (a - b) * (a - b)) (colv values2 j)).sum

/-- The inner minimum scan of calculate_dists in vector_fns.rs: iterate j over
all observations in order, skip the already used ones, and keep the first
strictly smaller distance. The accumulator none plays the role of the
f64::MAX start value, which every real distance improves on. -/
def minScan (d : ℕ → ℚ) (cands : List ℕ) : Option (ℕ × ℚ) :=
  cands.foldl
    (fun acc j =>
      match acc with
      | none => some (j, d j)
      | some p => if d j < p.2 then some (j, d j) else acc)
    none

/-- The index produced by one inner loop: candidates are the observations not
yet in used, visited in increasing order; min_index is initialised to 0 in the
source, which is only reached when every index is already used. -/
def minIndex (n : ℕ) (used : List ℕ) (d : ℕ → ℚ) : ℕ :=
  match minScan d ((List.range n).filter (fun j => decide (j ∉ used))) with
  | some p => p.1
  | none => 0

/-- The greedy matching loop of calculate_dists in vector_fns.rs: visit
observations of values1 in the rank order of their first variable, give each
the closest unused observation of values2, record it in results and mark it
used. -/
def greedyLoop (values1 values2 : Mat) (n : ℕ) :
    List ℕ → List ℕ → List (Option ℕ) → List ℕ × List (Option ℕ)
  | [], used, results => (used, results)
  | i :: rest, used, results =>
    let mi := minIndex n used (dist2 values1 values2 i)
    greedyLoop values1 values2 n rest (mi :: used) (results.set i (some mi))

/-- The matching state after the full loop: the set of used indices and the
per-observation chosen indices. -/
def greedyMatch (values1 values2 : Mat) : List ℕ × List (Option ℕ) :=
  let sorting_order := get_ordering_index (row0 values1) false false
  greedyLoop values1 values2 (row0 values1).length sorting_order []
    (List.replicate sorting_order.length none)

/-- calculate_dists of vector_fns.rs: assert the inputs non-empty and of equal
dimension, run the greedy matching, then unwrap each matched index and emit
v2[0] - v1[0] (or its value relative to v1[0]) per observation. The unwrap
panic is modelled by none. -/
def calculate_dists (values1 values2 : Mat) (absolute : Bool) : Option (List ℚ) :=
  if matIsEmpty values1 ∨ matDim values1 ≠ matDim values2 then none
  else
    let results := (greedyMatch values1 values2).2
    if results.all (fun r => r.isSome) then
      some ((results.zip (List.range (row0 values1).length)).map
        (fun p =>
          let b := (row0 values2).getD (p.1.getD 0) 0
          let a := (row0 values1).getD p.2 0
          if absolute then b - a else (b - a) / a))
    else none

theorem minScan_go_ne_none (d : ℕ → ℚ) :
    ∀ (l : List ℕ) (acc : ℕ × ℚ),
      l.foldl
        (fun acc j =>
          match acc with
          | none => some (j, d j)
          | some p => if d j < p.2 then some (j, d j) else acc)
        (some acc) ≠ none := by
  intro l
  induction l with
  | nil => intro acc h; exact Option.noConfusion h
  | cons j rest ih =>
    intro acc
    rw [List.foldl_cons]
    by_cases hj : d j < acc.2
    · simp only [hj, if_pos]
      exact ih _
    · simp only [hj, if_neg, ite_false]
      exact ih _

theorem minScan_ne_none (d : ℕ → ℚ) (cands : List ℕ) (h : cands ≠ []) :
    minScan d cands ≠ none := by
  cases cands with
  | nil => exact absurd rfl h
  | cons c rest =>
    rw [minScan, List.foldl_cons]
    exact minScan_go_ne_none d rest (c, d c)

theorem minScan_go_mem (d : ℕ → ℚ) :
    ∀ (l : List ℕ) (acc : Option (ℕ × ℚ)) {p : ℕ × ℚ},
      l.foldl
        (fun acc j =>
          match acc with
          | none => some (j, d j)
          | some p => if d j < p.2 then some (j, d j) else acc)
        acc = some p → p.1 ∈ l ∨ acc = some p := by
  intro l
  induction l with
  | nil => intro acc p h; exact Or.inr h
  | cons j rest ih =>
    intro acc p h
    rw [List.foldl_cons] at h
    rcases ih _ h with hmem | hstep
    · exact Or.inl (List.mem_cons_of_mem _ hmem)
    · cases acc with
      | none =>
        simp only at hstep
        cases hstep
        exact Or.inl (List.mem_cons_self _ _)
      | some q =>
        simp only at hstep
        by_cases hj : d j < q.2
        · rw [if_pos hj] at hstep
          cases hstep
          exact Or.inl (List.mem_cons_self _ _)
        · rw [if_neg hj] at hstep
          exact Or.inr hstep

theorem minIndex_fresh (n : ℕ) (used : List ℕ) (d : ℕ → ℚ)
    (h : ∃ j, j < n ∧ j ∉ used) :
    minIndex n used d < n ∧ minIndex n used d ∉ used := by
  obtain ⟨j, hj, hju⟩ := h
  have hjc : j ∈ (List.range n).filter (fun j => decide (j ∉ used)) :=
    List.mem_filter.mpr ⟨List.mem_range.mpr hj, by simpa using hju⟩
  have hne : (List.range n).filter (fun j => decide (j ∉ used)) ≠ [] :=
    List.ne_nil_of_mem hjc
  rw [minIndex]
  cases hms : minScan d ((List.range n).filter (fun j => decide (j ∉ used))) with
  | none => exact absurd hms (minScan_ne_none _ _ hne)
  | some p =>
    rcases minScan_go_mem d _ _ hms with hmem | habs
    · have h1 := List.mem_of_mem_filter hmem
      have h2 := List.of_mem_filter hmem
      exact ⟨List.mem_range.mp h1, by simpa using h2⟩
    · exact Option.noConfusion habs

theorem exists_fresh (n : ℕ) (used : List ℕ) (hb : ∀ u ∈ used, u < n)
    (hnd : used.Nodup) (hlen : used.length < n) : ∃ j, j < n ∧ j ∉ used := by
  by_contra hall
  push_neg at hall
  have hsub : List.range n ⊆ used := by
    intro j hj
    exact hall j (List.mem_range.mp hj)
  have := (List.subperm_of_subset (List.nodup_range n) hsub).length_le
  rw [List.length_range] at this
  omega

theorem greedyLoop_invariant (values1 values2 : Mat) (n : ℕ) :
    ∀ (order used : List ℕ) (results : List (Option ℕ)),
      used.length + order.length ≤ n →
      (∀ u ∈ used, u < n) → used.Nodup →
      (∀ u ∈ (greedyLoop values1 values2 n order used results).1, u < n) ∧
      (greedyLoop values1 values2 n order used results).1.Nodup ∧
      (greedyLoop values1 values2 n order used results).2.length = results.length ∧
      (∀ i, i ∉ order →
        (greedyLoop values1 values2 n order used results).2[i]? = results[i]?) ∧
      (∀ i ∈ order, i < results.length →
        ∃ v, (greedyLoop values1 values2 n order used results).2[i]? = some (some v)) := by
  intro order
  induction order with
  | nil =>
    intro used results hlen hb hnd
    refine ⟨hb, hnd, rfl, fun i _ => rfl, fun i hi => absurd hi (List.not_mem_nil _)⟩
  | cons i rest ih =>
    intro used results hlen hb hnd
    have hfresh := minIndex_fresh n used (dist2 values1 values2 i)
      (exists_fresh n used hb hnd (by simp only [List.length_cons] at hlen; omega))
    rw [greedyLoop]
    have hb' : ∀ u ∈ minIndex n used (dist2 values1 values2 i) :: used, u < n := by
      intro u hu
      rcases List.mem_cons.mp hu with rfl | hu
      · exact hfresh.1
      · exact hb u hu
    have hnd' : (minIndex n used (dist2 values1 values2 i) :: used).Nodup :=
      List.nodup_cons.mpr ⟨hfresh.2, hnd⟩
    have hlen' : (minIndex n used (dist2 values1 values2 i) :: used).length
        + rest.length ≤ n := by
      simp only [List.length_cons] at hlen ⊢
      omega
    obtain ⟨j1, j2, j3, j4, j5⟩ := ih (minIndex n used (dist2 values1 values2 i) :: used)
      (results.set i (some (minIndex n used (dist2 values1 values2 i)))) hlen' hb' hnd'
    refine ⟨j1, j2, by rw [j3, List.length_set], ?_, ?_⟩
    · intro i0 hi0
      have hne : i0 ≠ i := fun h => hi0 (h ▸ List.mem_cons_self _ _)
      have hnr : i0 ∉ rest := fun h => hi0 (List.mem_cons_of_mem _ h)
      rw [j4 i0 hnr, List.getElem?_set_ne (fun h => hne h.symm)]
    · intro i0 hi0 hi0len
      by_cases hir : i0 ∈ rest
      · exact j5 i0 hir (by rwa [List.length_set])
      · have hii : i0 = i := by
          rcases List.mem_cons.mp hi0 with h | h
          · exact h
          · exact absurd h hir
        subst hii
        rw [j4 i0 hir, List.getElem?_set_self hi0len]
        exact ⟨_, rfl⟩

/-- All results of the greedy matching are filled in and the chosen target
indices are pairwise distinct. -/
theorem greedyMatch_spec (values1 values2 : Mat) :
    (greedyMatch values1 values2).1.Nodup ∧
    (greedyMatch values1 values2).2.length = (row0 values1).length ∧
    (∀ i < (row0 values1).length,
      ∃ v, (greedyMatch values1 values2).2[i]? = some (some v)) ∧
    (∀ u ∈ (greedyMatch values1 values2).1, u < (row0 values1).length) := by
  have hlen0 : (index_sort false false (row0 values1)).length = (row0 values1).length :=
    length_index_sort false false (row0 values1)
  have hinv := greedyLoop_invariant values1 values2 (row0 values1).length
    (index_sort false false (row0 values1)) []
    (List.replicate (index_sort false false (row0 values1)).length none)
    (by simp [hlen0]) (by intro u hu; exact absurd hu (List.not_mem_nil _)) List.nodup_nil
  obtain ⟨hub, hnd, hlen, _, hsome⟩ := hinv
  simp only [greedyMatch, get_ordering_index]
  refine ⟨hnd, ?_, ?_, hub⟩
  · rw [hlen, List.length_replicate, hlen0]
  · intro i hi
    have hmem : i ∈ index_sort false false (row0 values1) :=
      (index_sort_perm_range false false (row0 values1)).mem_iff.mpr (List.mem_range.mpr hi)
    exact hsome i hmem (by rw [List.length_replicate, hlen0]; exact hi)

/-- The unwrap never panics: after a successful dimension check the results of
the matching loop are all some. -/
theorem greedyMatch_all_isSome (values1 values2 : Mat) :
    (greedyMatch values1 values2).2.all (fun r => r.isSome) = true := by
  obtain ⟨_, hlen, hsome, _⟩ := greedyMatch_spec values1 values2
  rw [List.all_eq_true]
  intro x hx
  obtain ⟨i, hi, hix⟩ := List.mem_iff_getElem.mp hx
  obtain ⟨v, hv⟩ := hsome i (by rwa [hlen] at hi)
  rw [List.getElem?_eq_getElem hi, hix] at hv
  cases hv
  rfl

/-- calculate_dists of vector_fns.rs fails exactly when an input is empty or
the dimensions differ. -/
theorem calculate_dists_none_iff (values1 values2 : Mat) (absolute : Bool) :
    calculate_dists values1 values2 absolute = none
      ↔ (matIsEmpty values1 ∨ matIsEmpty values2 ∨ matDim values1 ≠ matDim values2) := by
  by_cases hg : matIsEmpty values1 ∨ matDim values1 ≠ matDim values2
  · rw [calculate_dists, if_pos hg]
    simp only [true_iff]
    tauto
  · rw [calculate_dists, if_neg hg]
    push_neg at hg
    simp only [greedyMatch_all_isSome values1 values2, if_pos]
    constructor
    · intro h; exact Option.noConfusion h
    · intro h
      have := (guard_cond_iff values1 values2).mpr h
      rcases this with h0 | h0
      · exact absurd h0 hg.1
      · exact absurd hg.2 h0

end VectorFns

namespace Mlr

/-- Dot product of two equally long coefficient vectors. -/
def dot (xs ys : List ℚ) : ℚ := (xs.zipWith (fun a b => a * b) ys).sum

/-- Index of the first row whose leading coefficient is non-zero. -/
def pivotIdx : List (List ℚ) → Option ℕ
  | [] => none
  | r :: rs => if r.headD 0 ≠ 0 then some 0 else (pivotIdx rs).map (· + 1)

theorem pivotIdx_lt : ∀ (rows : List (List ℚ)) {k : ℕ},
    pivotIdx rows = some k → k < rows.length := by
  intro rows
  induction rows with
  | nil => intro k h; exact Option.noConfusion h
  | cons r rs ih =>
    intro k h
    rw [pivotIdx] at h
    split_ifs at h with hr
    · cases h; exact Nat.succ_pos _
    · rcases Option.map_eq_some'.mp h with ⟨k0, hk0, hk⟩
      have := ih hk0
      simp only [List.length_cons]
      omega

/-- Gaussian elimination on an augmented square system, fuelled so that it
evaluates by kernel reduction; the fuel is the row count at every call.
When the leading column has no pivot the first equation is dropped and the
corresponding unknown is set to 0. -/
def gelimAux : ℕ → List (List ℚ) → List ℚ
  | 0, _ => []
  | _ + 1, [] => []
  | fuel + 1, rows =>
    match pivotIdx rows with
    | none => 0 :: gelimAux fuel ((rows.drop 1).map (fun r => r.drop 1))
    | some k =>
      let p := rows.getD k []
      let piv := p.headD 0
      let rest := rows.eraseIdx k
      let reduced := rest.map
        (fun r => ((r.zipWith (fun a b => a - (r.headD 0 / piv) * b) p).drop 1))
      let xs := gelimAux fuel reduced
      ((p.getLastD 0) - dot ((p.drop 1).dropLast) xs) / piv :: xs

/-- Solve a square linear system given as augmented rows. -/
def gelim (rows : List (List ℚ)) : List ℚ := gelimAux rows.length rows

/-- Modelled from the spec: the external least-squares solve performed by
ndarray-linalg (LAPACK SVD), which is not part of this repository. The spec
describes it as solving the ordinary-least-squares problem
dependent = sum of coefficient_k * independent_k with no intercept, one
coefficient per independent variable. It is modelled as the solution of the
normal equations (X transposed X) beta = X transposed y, which coincides with
the library result whenever the normal matrix is invertible (the case at every
concrete input used below); X is given as the list of independent-variable
rows and the solution length always equals the number of those rows. -/
def leastSquares (X : List (List ℚ)) (y : List ℚ) : List ℚ :=
  gelim (X.map (fun xi => (X.map (fun xj => dot xi xj)) ++ [dot xi y]))

/-- mlr_beta of mlr.rs: assert the matrix non-empty (none models the panic),
take row 0 as the target variable and all remaining rows as independent
variables, and return the least-squares solution. -/
def mlr_beta (data : Mat) : Option (List ℚ) :=
  if matIsEmpty data then none
  else some (leastSquares (data.drop 1) (row0 data))

/-- Largest k with k * k at most n, written as a bounded search so that it
evaluates by rewriting. -/
def natSqrtBelow (n : ℕ) : ℕ :=
  ((List.range (n + 1)).filter (fun k => decide (k * k ≤ n))).foldr max 0

/-- Modelled from the spec: an idealised f64 square root over ℚ, used only at
perfect squares where it is exact. -/
def ratSqrt (q : ℚ) : ℚ := (natSqrtBelow q.num.toNat : ℚ) / (natSqrtBelow q.den : ℚ)

/-- standardise_arrays of mlr.rs: per variable row, pool the observations of
both matrices, compute mean and population standard deviation from the pooled
sums and sums of squares with nobs = 2 * ncols values1, and shift-scale every
entry of that row in both matrices. -/
def standardise_arrays (values1 values2 : Mat) : Mat × Mat :=
  let sum_values := (values1.map List.sum).zipWith (fun a b => a + b) (values2.map List.sum)
  let sum_values_sq := (values1.map (fun r => (r.map (fun x => x * x)).sum)).zipWith
    (fun a b => a + b) (values2.map (fun r => (r.map (fun x => x * x)).sum))
  let nobs : ℚ := 2 * (ncols values1 : ℚ)
  let mean_vals := sum_values.map (fun s => s / nobs)
  let std_devs := sum_values_sq.zipWith
    (fun sq s => ratSqrt (sq / nobs - (s / nobs) * (s / nobs))) sum_values
  let ms := mean_vals.zip std_devs
  ((values1.zipWith (fun r p => r.map (fun x => (x - p.1) / p.2)) ms),
   (values2.zipWith (fun r p => r.map (fun x => (x - p.1) / p.2)) ms))

/-- adj_for_beta of mlr.rs and lib.rs: fit beta coefficients of both matrices
with mlr_beta (none when either panics), then overwrite row 0 of values1 so
that observation o holds the dot product of the auxiliary column values with
1 + beta2 - beta1. -/
def adj_for_beta (values1 values2 : Mat) : Option Mat :=
  match mlr_beta values1, mlr_beta values2 with
  | some beta1, some beta2 =>
    let coeffs := beta2.zipWith (fun b2 b1 => 1 + b2 - b1) beta1
    let result := (List.range (ncols values1)).map
      (fun i => dot ((values1.drop 1).map (fun r => r.getD i 0)) coeffs)
    some (values1.set 0 result)
  | _, _ => none

/-- Follows the words of the spec (Contract C) for comparison with the
source adj_for_beta: standardise both matrices first, fit the betas on the
standardised data, then rebuild row 0 of the pre-standardisation values1 from
the auxiliary values and 1 + beta2 - beta1. -/
def adjust_specC (values1 values2 : Mat) : Option Mat :=
  let std := standardise_arrays values1 values2
  match mlr_beta std.1, mlr_beta std.2 with
  | some beta1, some beta2 =>
    let coeffs := beta2.zipWith (fun b2 b1 => 1 + b2 - b1) beta1
    let result := (List.range (ncols values1)).map
      (fun i => dot ((values1.drop 1).map (fun r => r.getD i 0)) coeffs)
    some (values1.set 0 result)
  | _, _ => none

theorem gelimAux_length : ∀ (fuel : ℕ) (rows : List (List ℚ)),
    rows.length ≤ fuel → (gelimAux fuel rows).length = rows.length := by
  intro fuel
  induction fuel with
  | zero =>
    intro rows h
    have : rows = [] := List.length_eq_zero.mp (Nat.le_zero.mp h)
    rw [this, gelimAux]
    rfl
  | succ fuel ih =>
    intro rows h
    cases rows with
    | nil => rw [gelimAux]; rfl
    | cons r rs =>
      cases hp : pivotIdx (r :: rs) with
      | none =>
        simp only [gelimAux, hp, List.length_cons, List.drop_succ_cons, List.drop_zero]
        rw [ih (rs.map (fun r => r.drop 1))
          (by rw [List.length_map]; exact Nat.le_of_succ_le_succ h)]
        rw [List.length_map]
      | some k =>
        have hk := pivotIdx_lt _ hp
        simp only [gelimAux, hp, List.length_cons]
        rw [ih _ ?_]
        · rw [List.length_map, List.length_eraseIdx, if_pos hk]
          simp only [List.length_cons]
          omega
        · rw [List.length_map, List.length_eraseIdx, if_pos hk]
          simp only [List.length_cons] at h ⊢
          omega

theorem gelim_length (rows : List (List ℚ)) : (gelim rows).length = rows.length :=
  gelimAux_length rows.length rows (Nat.le_refl _)

theorem leastSquares_length (X : List (List ℚ)) (y : List ℚ) :
    (leastSquares X y).length = X.length := by
  rw [leastSquares, gelim_length, List.length_map]

/-- mlr_beta fails exactly on an empty matrix, and otherwise returns one
coefficient per independent variable. -/
theorem mlr_beta_none_iff (data : Mat) : mlr_beta data = none ↔ matIsEmpty data := by
  by_cases h : matIsEmpty data
  · rw [mlr_beta, if_pos h]; simp [h]
  · rw [mlr_beta, if_neg h]; simp [h]

theorem mlr_beta_length (data : Mat) {bs : List ℚ} (h : mlr_beta data = some bs) :
    bs.length = nrows data - 1 := by
  by_cases hemp : matIsEmpty data
  · rw [mlr_beta, if_pos hemp] at h
    exact Option.noConfusion h
  · rw [mlr_beta, if_neg hemp] at h
    cases h
    rw [leastSquares_length, List.length_drop]
    rfl

theorem mlr_beta_some (data : Mat) {bs : List ℚ} (h : mlr_beta data = some bs) :
    bs = leastSquares (data.drop 1) (row0 data) ∧ ¬ matIsEmpty data := by
  by_cases hemp : matIsEmpty data
  · rw [mlr_beta, if_pos hemp] at h
    exact Option.noConfusion h
  · rw [mlr_beta, if_neg hemp] at h
    cases h; exact ⟨rfl, hemp⟩

/-- Frame property of adj_for_beta: a successful call only rewrites row 0; all
later rows survive unchanged and the row count is preserved. The second matrix
is taken by shared reference in the source and is returned untouched, which
the embedding reflects by not producing any new second matrix at all. -/
theorem adj_for_beta_frame (values1 values2 : Mat) {m' : Mat}
    (h : adj_for_beta values1 values2 = some m') :
    m'.drop 1 = values1.drop 1 ∧ m'.length = values1.length := by
  rw [adj_for_beta] at h
  cases hb1 : mlr_beta values1 with
  | none => rw [hb1] at h; exact Option.noConfusion h
  | some beta1 =>
    cases hb2 : mlr_beta values2 with
    | none => rw [hb1, hb2] at h; exact Option.noConfusion h
    | some beta2 =>
      rw [hb1, hb2] at h
      cases h
      constructor
      · cases values1 with
        | nil => rfl
        | cons r rs => rfl
      · rw [List.length_set]

/-- Row 0 after adj_for_beta: observation o holds the dot product of the
auxiliary values of observation o with 1 + beta2 - beta1, the betas being the
raw least-squares fits of the two input matrices. -/
theorem adj_for_beta_row0 (values1 values2 : Mat) {m' : Mat}
    (h : adj_for_beta values1 values2 = some m') {o : ℕ} (ho : o < ncols values1) :
    (row0 m').getD o 0
      = dot ((values1.drop 1).map (fun r => r.getD o 0))
          ((leastSquares (values2.drop 1) (row0 values2)).zipWith
            (fun b2 b1 => 1 + b2 - b1)
            (leastSquares (values1.drop 1) (row0 values1))) := by
  rw [adj_for_beta] at h
  cases hb1 : mlr_beta values1 with
  | none => rw [hb1] at h; exact Option.noConfusion h
  | some beta1 =>
    cases hb2 : mlr_beta values2 with
    | none => rw [hb1, hb2] at h; exact Option.noConfusion h
    | some beta2 =>
      rw [hb1, hb2] at h
      cases h
      obtain ⟨hbeta1, hne1⟩ := mlr_beta_some values1 hb1
      obtain ⟨hbeta2, _⟩ := mlr_beta_some values2 hb2
      have hv1 : values1 ≠ [] := by
        intro hnil
        exact hne1 (Or.inl (by rw [hnil]; rfl))
      obtain ⟨r, rs, rfl⟩ := List.exists_cons_of_ne_nil hv1
      have hrow : row0 ((r :: rs).set 0
          ((List.range (ncols (r :: rs))).map
            (fun i => dot (((r :: rs).drop 1).map (fun row => row.getD i 0))
              (beta2.zipWith (fun b2 b1 => 1 + b2 - b1) beta1))))
          = (List.range (ncols (r :: rs))).map
            (fun i => dot (((r :: rs).drop 1).map (fun row => row.getD i 0))
              (beta2.zipWith (fun b2 b1 => 1 + b2 - b1) beta1)) := rfl
      rw [hrow]
      have ho' : o < ((List.range (ncols (r :: rs)))).length := by
        rwa [List.length_range]
      rw [List.getD_eq_getElem?_getD, List.getElem?_map,
        List.getElem?_eq_getElem ho']
      simp only [List.getElem_range, Option.map_some', Option.getD_some]
      rw [hbeta1, hbeta2]

end Mlr

namespace Lib

/-- The group aggregation fragment of uamutate in lib.rs: take the maximum
group id (the unwrap panic on an empty list is none), accumulate counts and
sums indexed directly by group id into vectors of length max+1, and divide,
emitting 0.0 for a count of zero. -/
def aggregate (groups : List ℕ) (dists : List ℚ) : Option (List ℚ) :=
  match groups.max? with
  | none => none
  | some max_group =>
    let cs := (groups.zip dists).foldl
      (fun cs p => (cs.1.set p.1 (cs.1.getD p.1 0 + 1), cs.2.set p.1 (cs.2.getD p.1 0 + p.2)))
      (List.replicate (max_group + 1) (0 : ℕ), List.replicate (max_group + 1) (0 : ℚ))
    some ((cs.2.zip cs.1).map (fun sc => if sc.2 ≠ 0 then sc.1 / (sc.2 : ℚ) else 0))

/-- Characterisation of the count-and-sum accumulation loop: entry g of the
final vectors holds the initial entry plus the number of, respectively the
signal sum over, the processed observations carrying group id g. -/
theorem agg_foldl_spec (g : ℕ) :
    ∀ (L : List (ℕ × ℚ)) (cs : List ℕ) (ss : List ℚ),
      g < cs.length → cs.length = ss.length → (∀ p ∈ L, p.1 < cs.length) →
      (L.foldl
        (fun cs p =>
          (cs.1.set p.1 (cs.1.getD p.1 0 + 1), cs.2.set p.1 (cs.2.getD p.1 0 + p.2)))
        (cs, ss)).1.getD g 0 = cs.getD g 0 + L.countP (fun p => p.1 == g) ∧
      (L.foldl
        (fun cs p =>
          (cs.1.set p.1 (cs.1.getD p.1 0 + 1), cs.2.set p.1 (cs.2.getD p.1 0 + p.2)))
        (cs, ss)).2.getD g 0
        = ss.getD g 0 + ((L.filter (fun p => p.1 == g)).map Prod.snd).sum ∧
      (L.foldl
        (fun cs p =>
          (cs.1.set p.1 (cs.1.getD p.1 0 + 1), cs.2.set p.1 (cs.2.getD p.1 0 + p.2)))
        (cs, ss)).1.length = cs.length ∧
      (L.foldl
        (fun cs p =>
          (cs.1.set p.1 (cs.1.getD p.1 0 + 1), cs.2.set p.1 (cs.2.getD p.1 0 + p.2)))
        (cs, ss)).2.length = ss.length := by
  intro L
  induction L with
  | nil =>
    intro cs ss hg _ _
    refine ⟨by simp, by simp, rfl, rfl⟩
  | cons p rest ih =>
    intro cs ss hg hcs hb
    have hp1 : p.1 < cs.length := hb p (List.mem_cons_self _ _)
    have hgs : g < ss.length := hcs ▸ hg
    rw [List.foldl_cons]
    obtain ⟨i1, i2, i3, i4⟩ := ih (cs.set p.1 (cs.getD p.1 0 + 1))
      (ss.set p.1 (ss.getD p.1 0 + p.2))
      (by rwa [List.length_set])
      (by rw [List.length_set, List.length_set]; exact hcs)
      (by intro q hq; rw [List.length_set]; exact hb q (List.mem_cons_of_mem _ hq))
    refine ⟨?_, ?_, by rwa [List.length_set] at i3, by rwa [List.length_set] at i4⟩
    · rw [i1]
      simp only [List.getD_eq_getElem?_getD]
      by_cases hpg : p.1 = g
      · rw [hpg, List.getElem?_set_self hg, Option.getD_some,
          List.countP_cons, if_pos (by simpa using hpg)]
        omega
      · rw [List.getElem?_set_ne hpg, List.countP_cons, if_neg (by simpa using hpg)]
        omega
    · rw [i2]
      simp only [List.getD_eq_getElem?_getD]
      by_cases hpg : p.1 = g
      · have hfil : ((p :: rest).filter (fun q => q.1 == g)).map Prod.snd
            = p.2 :: ((rest.filter (fun q => q.1 == g)).map Prod.snd) := by
          rw [List.filter_cons, if_pos (by simpa using hpg)]
          rfl
        rw [hfil, List.sum_cons, hpg, List.getElem?_set_self hgs, Option.getD_some]
        ring
      · rw [List.getElem?_set_ne hpg, List.filter_cons, if_neg (by simpa using hpg)]

/-- Group ids never exceed the maximum returned by max's unwrap. -/
theorem le_of_mem_max? {l : List ℕ} {a m : ℕ} (ha : a ∈ l) (hm : l.max? = some m) :
    a ≤ m :=
  (List.max?_eq_some_iff'.mp hm).2 a ha

/-- The aggregation output: one entry per group id from 0 through the maximum
observed id; entry g holds the mean of the signal over observations with group
id g and 0.0 when no observation carries that id. -/
theorem aggregate_spec (groups : List ℕ) (dists : List ℚ) {maxg : ℕ}
    (hmax : groups.max? = some maxg) (hlen : dists.length = groups.length)
    {g : ℕ} (hg : g ≤ maxg) :
    ∃ out, aggregate groups dists = some out ∧ out.length = maxg + 1 ∧
      out.getD g 0 =
        (if groups.countP (fun x => x == g) ≠ 0 then
          (((groups.zip dists).filter (fun p => p.1 == g)).map Prod.snd).sum
            / (groups.countP (fun x => x == g) : ℚ)
        else 0) := by
  have hzcount : ∀ (gs : List ℕ) (ds : List ℚ), ds.length = gs.length →
      (gs.zip ds).countP (fun p => p.1 == g) = gs.countP (fun x => x == g) := by
    intro gs
    induction gs with
    | nil => intro ds _; simp
    | cons a gs ih =>
      intro ds hds
      cases ds with
      | nil => simp at hds
      | cons d ds =>
        rw [List.zip_cons_cons, List.countP_cons, List.countP_cons,
          ih ds (by simpa using hds)]

  have hbound : ∀ p ∈ groups.zip dists, p.1 < (List.replicate (maxg + 1) (0 : ℕ)).length := by
    intro p hp
    have h1 := (List.mem_zip hp).1
    have h2 := le_of_mem_max? h1 hmax
    rw [List.length_replicate]
    omega
  have hg' : g < (List.replicate (maxg + 1) (0 : ℕ)).length := by
    rw [List.length_replicate]; omega
  obtain ⟨h1, h2, h3, h4⟩ := agg_foldl_spec g (groups.zip dists)
    (List.replicate (maxg + 1) (0 : ℕ)) (List.replicate (maxg + 1) (0 : ℚ)) hg'
    (by rw [List.length_replicate, List.length_replicate]) hbound
  rw [aggregate, hmax]
  refine ⟨_, rfl, ?_, ?_⟩
  · rw [List.length_map, List.length_zip, h3, h4, List.length_replicate,
      List.length_replicate]
    omega
  · have hglen2 : g < maxg + 1 := by omega
    have hcg : (List.replicate (maxg + 1) (0 : ℕ)).getD g 0 = 0 := by
      rw [List.getD_eq_getElem?_getD, List.getElem?_eq_getElem (by simpa using hglen2)]
      simp
    have hsg : (List.replicate (maxg + 1) (0 : ℚ)).getD g 0 = 0 := by
      rw [List.getD_eq_getElem?_getD, List.getElem?_eq_getElem (by simpa using hglen2)]
      simp
    rw [hcg] at h1
    rw [hsg] at h2
    rw [Nat.zero_add] at h1
    rw [zero_add] at h2
    have hglt1 : g < (List.zip
        ((groups.zip dists).foldl
          (fun cs p =>
            (cs.1.set p.1 (cs.1.getD p.1 0 + 1), cs.2.set p.1 (cs.2.getD p.1 0 + p.2)))
          (List.replicate (maxg + 1) (0 : ℕ), List.replicate (maxg + 1) (0 : ℚ))).2
        ((groups.zip dists).foldl
          (fun cs p =>
            (cs.1.set p.1 (cs.1.getD p.1 0 + 1), cs.2.set p.1 (cs.2.getD p.1 0 + p.2)))
          (List.replicate (maxg + 1) (0 : ℕ), List.replicate (maxg + 1) (0 : ℚ))).1).length := by
      rw [List.length_zip, h3, h4, List.length_replicate, List.length_replicate]
      omega
    rw [List.getD_eq_getElem?_getD, List.getElem?_map,
      List.getElem?_eq_getElem hglt1]
    rw [List.getElem_zip]
    simp only [Option.map_some', Option.getD_some]
    have hsnd : (((groups.zip dists).foldl
          (fun cs p =>
            (cs.1.set p.1 (cs.1.getD p.1 0 + 1), cs.2.set p.1 (cs.2.getD p.1 0 + p.2)))
          (List.replicate (maxg + 1) (0 : ℕ), List.replicate (maxg + 1) (0 : ℚ))).1)[g]
        = groups.countP (fun x => x == g) := by
      have hlt : g < (((groups.zip dists).foldl
          (fun cs p =>
            (cs.1.set p.1 (cs.1.getD p.1 0 + 1), cs.2.set p.1 (cs.2.getD p.1 0 + p.2)))
          (List.replicate (maxg + 1) (0 : ℕ), List.replicate (maxg + 1) (0 : ℚ))).1).length := by
        rw [h3, List.length_replicate]; omega
      rw [← hzcount groups dists hlen, ← h1, List.getD_eq_getElem?_getD,
        List.getElem?_eq_getElem hlt]
      rfl
    have hltq : g < (((groups.zip dists).foldl
          (fun cs p =>
            (cs.1.set p.1 (cs.1.getD p.1 0 + 1), cs.2.set p.1 (cs.2.getD p.1 0 + p.2)))
          (List.replicate (maxg + 1) (0 : ℕ), List.replicate (maxg + 1) (0 : ℚ))).2).length := by
      rw [h4, List.length_replicate]; omega
    have hfst : (((groups.zip dists).foldl
          (fun cs p =>
            (cs.1.set p.1 (cs.1.getD p.1 0 + 1), cs.2.set p.1 (cs.2.getD p.1 0 + p.2)))
          (List.replicate (maxg + 1) (0 : ℕ), List.replicate (maxg + 1) (0 : ℚ))).2)[g]
        = (((groups.zip dists).filter (fun p => p.1 == g)).map Prod.snd).sum := by
      rw [← h2, List.getD_eq_getElem?_getD, List.getElem?_eq_getElem hltq]
      rfl
    rw [hsnd, hfst]

end Lib

namespace ReadWriteFile

/-- readfile of read_write_file.rs, modelled at the I/O boundary: file opening
and JSON decoding are external, so the input is the sequence of numeric values
parsed for the requested variable, in file order; the nentries cap truncates
that sequence during parsing. The function asserts nentries positive (none
models the panic), stable-sorts the enumerated values ascending, and returns
the original positions and the sorted values. -/
def readfile (vals : List ℚ) (nentries : ℕ) : Option (List ℕ × List ℚ) :=
  if nentries = 0 then none
  else
    let pairs := sortedPairs false false (vals.take nentries)
    some (pairs.map Prod.fst, pairs.map Prod.snd)

end ReadWriteFile

/- ## Claims -/

/-- C1: the claim states that the pairing produced by reorder_min_diff is an
order-preserving bijection in which every element of the second sequence is
used exactly once and whose total absolute cost is minimal among monotone
pairings. On the input of the unit test of its own module, sorted as the
function receives it, reorder_min_diff returns [0, 0, 0, 0]: no element of
[2, 3, 7, 9] is used at all and the result is not a permutation of the second
sequence, because the strict less-than of the dp recurrence compares every
candidate cost against skip entries that stay at their zero initialisation, so
no pair is ever recorded. The code contradicts the assertions of its own test
suite, which expects the matched differences [1, 1, 3, 4]. -/
theorem C1_reorder_min_diff_not_bijection :
    (∀ arr1 arr2 : List ℚ,
      CalcDistsDP.reorder_min_diff arr1 arr2 = List.replicate arr1.length 0) ∧
    CalcDistsDP.reorder_min_diff [1, 2, 4, 5] [2, 3, 7, 9] = [0, 0, 0, 0] ∧
    ¬ (CalcDistsDP.reorder_min_diff [1, 2, 4, 5] [2, 3, 7, 9]).Perm [2, 3, 7, 9] := by
  have h : CalcDistsDP.reorder_min_diff [1, 2, 4, 5] [2, 3, 7, 9] = [0, 0, 0, 0] := by
    rw [CalcDistsDP.reorder_min_diff_zero]
    rfl
  refine ⟨CalcDistsDP.reorder_min_diff_zero, h, ?_⟩
  rw [h]
  intro hperm
  have h2 : (2 : ℚ) ∈ [0, 0, 0, 0] := hperm.mem_iff.mpr (List.mem_cons_self _ _)
  norm_num at h2

/-- C2: the claim states that calculate_dists of calculate_dists.rs maps the
test input values1 = [1,2,4,5], values2 = [7,9,3,2] to absolute distances
[1,1,3,4] and relative distances [1.0, 0.5, 0.75, 0.8]. The dp variant
instead produces [-1,-2,-4,-5] and [-1,-1,-1,-1], contradicting its own unit
tests, because reorder_min_diff returns only zeros; the greedy variant of
vector_fns.rs, the one called by uamutate, does produce the claimed values. -/
theorem C2_calculate_dists_example :
    CalcDistsDP.calculate_dists [[1, 2, 4, 5]] [[7, 9, 3, 2]] true
      = some [-1, -2, -4, -5] ∧
    CalcDistsDP.calculate_dists [[1, 2, 4, 5]] [[7, 9, 3, 2]] false
      = some [-1, -1, -1, -1] ∧
    ([(-1 : ℚ), -2, -4, -5] ≠ [1, 1, 3, 4]) ∧
    VectorFns.calculate_dists [[1, 2, 4, 5]] [[7, 9, 3, 2]] true
      = some [1, 1, 3, 4] ∧
    VectorFns.calculate_dists [[1, 2, 4, 5]] [[7, 9, 3, 2]] false
      = some [1, 1/2, 3/4, 4/5] := by
  refine ⟨?_, ?_, by intro h; simp at h; norm_num at h, ?_, ?_⟩
  · norm_num [CalcDistsDP.calculate_dists, CalcDistsDP.reorder_min_diff_zero,
      get_ordering_index, index_sort, index_reorder, sortedPairs,
      List.insertionSort, List.orderedInsert, oiRel, sortKey, row0, matDim,
      matIsEmpty, nrows, ncols, List.range_succ, List.enum, List.enumFrom,
      List.replicate, List.set_cons_zero, List.set_cons_succ,
      List.getElem_cons_zero, List.getElem_cons_succ]
    rfl
  · norm_num [CalcDistsDP.calculate_dists, CalcDistsDP.reorder_min_diff_zero,
      get_ordering_index, index_sort, index_reorder, sortedPairs,
      List.insertionSort, List.orderedInsert, oiRel, sortKey, row0, matDim,
      matIsEmpty, nrows, ncols, List.range_succ, List.enum, List.enumFrom,
      List.replicate, List.set_cons_zero, List.set_cons_succ,
      List.getElem_cons_zero, List.getElem_cons_succ]
    rfl
  · norm_num [VectorFns.calculate_dists, VectorFns.greedyMatch, VectorFns.greedyLoop,
      VectorFns.get_ordering_index, VectorFns.minIndex, VectorFns.minScan,
      VectorFns.dist2, colv, index_sort, sortedPairs, List.insertionSort,
      List.orderedInsert, oiRel, sortKey, row0, matDim, matIsEmpty, nrows, ncols,
      List.range_succ, List.enum, List.enumFrom, List.replicate]
  · norm_num [VectorFns.calculate_dists, VectorFns.greedyMatch, VectorFns.greedyLoop,
      VectorFns.get_ordering_index, VectorFns.minIndex, VectorFns.minScan,
      VectorFns.dist2, colv, index_sort, sortedPairs, List.insertionSort,
      List.orderedInsert, oiRel, sortKey, row0, matDim, matIsEmpty, nrows, ncols,
      List.range_succ, List.enum, List.enumFrom, List.replicate]

/-- C3 counterexample: the claim states that the aggregation of signal
[4, 12, 6, 5] over group ids [1, 1, 2, 2] emits [8.0, 5.5], the group means in
order. The loop in uamutate indexes the count and sum vectors directly by
group id and allocates max_group + 1 slots, so the output really is
[0.0, 8.0, 5.5]: a leading entry for the unused id 0, then the means at their
ids. -/
theorem C3_aggregate_counterexample :
    Lib.aggregate [1, 1, 2, 2] [4, 12, 6, 5] = some [0, 8, 11/2] ∧
    Lib.aggregate [1, 1, 2, 2] [4, 12, 6, 5] ≠ some [8, 11/2] := by
  have h : Lib.aggregate [1, 1, 2, 2] [4, 12, 6, 5] = some [0, 8, 11/2] := by
    norm_num [Lib.aggregate, List.max?, List.replicate]
  refine ⟨h, ?_⟩
  rw [h]
  intro hcontra
  simp only [Option.some.injEq] at hcontra
  have := congrArg List.length hcontra
  simp at this

/-- C3 as amended: the group aggregator emits one entry per group id from 0 to
the maximum observed id; entry g is the mean of the signal over the
observations carrying id g and 0.0 for an id with no observations (such as the
always-unused id 0). -/
theorem C3_aggregate_amended (groups : List ℕ) (dists : List ℚ) (maxg g : ℕ)
    (hmax : groups.max? = some maxg) (hlen : dists.length = groups.length)
    (hg : g ≤ maxg) :
    ∃ out, Lib.aggregate groups dists = some out ∧ out.length = maxg + 1 ∧
      out.getD g 0 =
        (if groups.countP (fun x => x == g) ≠ 0 then
          (((groups.zip dists).filter (fun p => p.1 == g)).map Prod.snd).sum
            / (groups.countP (fun x => x == g) : ℚ)
        else 0) :=
  Lib.aggregate_spec groups dists hmax hlen hg

/-- C3 witness: the amended statement at the example of the claim, group id 1:
the output has three entries and entry 1 holds mean 8. -/
theorem C3_aggregate_amended_witness :
    ∃ out, Lib.aggregate [1, 1, 2, 2] [4, 12, 6, 5] = some out ∧ out.length = 2 + 1 ∧
      out.getD 1 0 =
        (if ([1, 1, 2, 2] : List ℕ).countP (fun x => x == 1) ≠ 0 then
          (((([1, 1, 2, 2] : List ℕ).zip ([4, 12, 6, 5] : List ℚ)).filter
              (fun p => p.1 == 1)).map Prod.snd).sum
            / ((([1, 1, 2, 2] : List ℕ).countP (fun x => x == 1)) : ℚ)
        else 0) :=
  C3_aggregate_amended [1, 1, 2, 2] [4, 12, 6, 5] 2 1 (by decide) (by decide) (by decide)

/-- C4 counterexample: the claim states that the regression adjustment first
standardises both matrices and fits the beta coefficients on the standardised
data. The source adj_for_beta never calls standardise_arrays: it fits the
betas on the raw matrices. On matrix1 = [[1,3],[1,1]], matrix2 = [[3,1],[3,3]]
the code writes row 0 = [-1/3, -1/3] (raw betas 2 and 2/3), while the
standardise-then-fit procedure of the claim yields row 0 = [1, 1]
(standardised betas both 0), so the claim fails on the code. -/
theorem C4_adjust_counterexample :
    Mlr.adj_for_beta [[1, 3], [1, 1]] [[3, 1], [3, 3]]
      = some [[-1/3, -1/3], [1, 1]] ∧
    Mlr.adjust_specC [[1, 3], [1, 1]] [[3, 1], [3, 3]]
      = some [[1, 1], [1, 1]] ∧
    Mlr.adj_for_beta [[1, 3], [1, 1]] [[3, 1], [3, 3]]
      ≠ Mlr.adjust_specC [[1, 3], [1, 1]] [[3, 1], [3, 3]] := by
  have h1 : Mlr.adj_for_beta [[1, 3], [1, 1]] [[3, 1], [3, 3]]
      = some [[-1/3, -1/3], [1, 1]] := by
    norm_num [Mlr.adj_for_beta, Mlr.mlr_beta, Mlr.leastSquares, Mlr.gelim,
      Mlr.gelimAux, Mlr.pivotIdx, Mlr.dot, matIsEmpty, nrows, ncols, row0,
      List.range_succ]
  have h2 : Mlr.adjust_specC [[1, 3], [1, 1]] [[3, 1], [3, 3]]
      = some [[1, 1], [1, 1]] := by
    norm_num [Mlr.adjust_specC, Mlr.standardise_arrays, Mlr.mlr_beta,
      Mlr.leastSquares, Mlr.gelim, Mlr.gelimAux, Mlr.pivotIdx, Mlr.dot,
      Mlr.ratSqrt, Mlr.natSqrtBelow, matIsEmpty, nrows, ncols, row0,
      List.range_succ, List.filter]
  refine ⟨h1, h2, ?_⟩
  rw [h1, h2]
  intro hcontra
  simp only [Option.some.injEq] at hcontra
  have := congrArg (fun l => (l.headD []).getD 0 (0 : ℚ)) hcontra
  norm_num at this

/-- C4 as amended: adj_for_beta fits beta1 and beta2 by least squares directly
on the raw, unstandardised matrices and replaces entry o of row 0 of matrix1
by the dot product of the auxiliary values of observation o with
1 + beta2 - beta1; standardise_arrays exists in the source but is never
called. -/
theorem C4_adjust_amended (values1 values2 : Mat) (m' : Mat) (o : ℕ)
    (h : Mlr.adj_for_beta values1 values2 = some m') (ho : o < ncols values1) :
    (row0 m').getD o 0
      = Mlr.dot ((values1.drop 1).map (fun r => r.getD o 0))
          ((Mlr.leastSquares (values2.drop 1) (row0 values2)).zipWith
            (fun b2 b1 => 1 + b2 - b1)
            (Mlr.leastSquares (values1.drop 1) (row0 values1))) :=
  Mlr.adj_for_beta_row0 values1 values2 h ho

/-- C4 witness: the amended statement at the counterexample input,
observation 0. -/
theorem C4_adjust_amended_witness :
    (row0 [[-1/3, -1/3], [1, 1]]).getD 0 0
      = Mlr.dot ((([[(1 : ℚ), 3], [1, 1]] : Mat).drop 1).map (fun r => r.getD 0 0))
          ((Mlr.leastSquares (([[(3 : ℚ), 1], [3, 3]] : Mat).drop 1)
              (row0 [[(3 : ℚ), 1], [3, 3]])).zipWith
            (fun b2 b1 => 1 + b2 - b1)
            (Mlr.leastSquares (([[(1 : ℚ), 3], [1, 1]] : Mat).drop 1)
              (row0 [[(1 : ℚ), 3], [1, 1]]))) :=
  C4_adjust_amended [[1, 3], [1, 1]] [[3, 1], [3, 3]] [[-1/3, -1/3], [1, 1]] 0
    (by norm_num [Mlr.adj_for_beta, Mlr.mlr_beta, Mlr.leastSquares, Mlr.gelim,
      Mlr.gelimAux, Mlr.pivotIdx, Mlr.dot, matIsEmpty, nrows, ncols, row0,
      List.range_succ])
    (by norm_num [ncols])

/-- C5: for matrices with at least two rows, equal shape and at least one
observation, adj_for_beta succeeds and mutates only row 0 of matrix1: the rows
from index 1 on are returned unchanged and the row count is preserved. The
second matrix is read through a shared reference in the source and no part of
it is written, which the pure embedding reflects by returning only the new
first matrix. -/
theorem C5_adjust_frame (values1 values2 : Mat)
    (hrows : 2 ≤ nrows values1) (hdim : matDim values1 = matDim values2)
    (hobs : 0 < ncols values1) :
    ∃ m', Mlr.adj_for_beta values1 values2 = some m' ∧
      m'.drop 1 = values1.drop 1 ∧ m'.length = values1.length := by
  have hne1 : ¬ matIsEmpty values1 := by
    intro h
    rcases h with h | h
    · rw [h] at hrows; omega
    · omega
  have hne2 : ¬ matIsEmpty values2 := by
    intro h
    apply hne1
    have h1 : nrows values1 = nrows values2 := congrArg Prod.fst hdim
    have h2 : ncols values1 = ncols values2 := congrArg Prod.snd hdim
    rcases h with h0 | h0
    · exact Or.inl (by rw [h1]; exact h0)
    · exact Or.inr (by rw [h2]; exact h0)
  cases hb1 : Mlr.mlr_beta values1 with
  | none => exact absurd ((Mlr.mlr_beta_none_iff values1).mp hb1) hne1
  | some beta1 =>
    cases hb2 : Mlr.mlr_beta values2 with
    | none => exact absurd ((Mlr.mlr_beta_none_iff values2).mp hb2) hne2
    | some beta2 =>
      have hsome : Mlr.adj_for_beta values1 values2
          = some (values1.set 0 ((List.range (ncols values1)).map
              (fun i => Mlr.dot ((values1.drop 1).map (fun r => r.getD i 0))
                (beta2.zipWith (fun b2 b1 => 1 + b2 - b1) beta1)))) := by
        rw [Mlr.adj_for_beta, hb1, hb2]
      refine ⟨_, hsome, ?_⟩
      exact Mlr.adj_for_beta_frame values1 values2 hsome

/-- C5 witness: the frame statement at the counterexample matrices of C4. -/
theorem C5_adjust_frame_witness :
    ∃ m', Mlr.adj_for_beta [[1, 3], [1, 1]] [[3, 1], [3, 3]] = some m' ∧
      m'.drop 1 = ([[(1 : ℚ), 3], [1, 1]] : Mat).drop 1 ∧
      m'.length = ([[(1 : ℚ), 3], [1, 1]] : Mat).length :=
  C5_adjust_frame [[1, 3], [1, 1]] [[3, 1], [3, 3]] (by decide) (by decide) (by decide)

/-- C6: the ranking utility returns a sort permutation of 0..n-1; the reorder
index is its functional inverse in both directions; the values indexed through
the sort permutation are non-decreasing in ascending mode and non-increasing
in descending mode; and equal values keep their relative original order, the
stable sort being modelled by the sort in the lexicographic
(comparison key, original index) relation. -/
theorem C6_ranking (vals : List ℚ) (desc : Bool) (i j : ℕ)
    (hij : i < j) (hj : j < vals.length) :
    (get_ordering_index vals desc false).index_sort.Perm (List.range vals.length) ∧
    (get_ordering_index vals desc false).index_reorder.getD
      ((get_ordering_index vals desc false).index_sort.getD j 0) 0 = j ∧
    (get_ordering_index vals desc false).index_sort.getD
      ((get_ordering_index vals desc false).index_reorder.getD j 0) 0 = j ∧
    (if desc then
        vals.getD ((get_ordering_index vals desc false).index_sort.getD j 0) 0
          ≤ vals.getD ((get_ordering_index vals desc false).index_sort.getD i 0) 0
      else
        vals.getD ((get_ordering_index vals desc false).index_sort.getD i 0) 0
          ≤ vals.getD ((get_ordering_index vals desc false).index_sort.getD j 0) 0) ∧
    (vals.getD ((get_ordering_index vals desc false).index_sort.getD i 0) 0
        = vals.getD ((get_ordering_index vals desc false).index_sort.getD j 0) 0 →
      (get_ordering_index vals desc false).index_sort.getD i 0
        < (get_ordering_index vals desc false).index_sort.getD j 0) := by
  refine ⟨index_sort_perm_range desc false vals,
    index_reorder_index_sort desc false vals hj,
    index_sort_index_reorder desc false vals hj, ?_, ?_⟩
  · have h := index_sort_sorted_key desc false vals hij hj
    simpa [sortKey] using h
  · intro htie
    exact index_sort_stable desc false vals hij hj (by simpa [sortKey] using htie)

/-- C6 witness: the ranking statement at the example sequence of the source
documentation, ascending, at ranks 0 and 1. -/
theorem C6_ranking_witness :
    (get_ordering_index [1, -2, 3, -4, 5] false false).index_sort.Perm
      (List.range ([(1 : ℚ), -2, 3, -4, 5]).length) ∧
    (get_ordering_index [1, -2, 3, -4, 5] false false).index_reorder.getD
      ((get_ordering_index [1, -2, 3, -4, 5] false false).index_sort.getD 1 0) 0 = 1 ∧
    (get_ordering_index [1, -2, 3, -4, 5] false false).index_sort.getD
      ((get_ordering_index [1, -2, 3, -4, 5] false false).index_reorder.getD 1 0) 0 = 1 ∧
    (if false then
        [(1 : ℚ), -2, 3, -4, 5].getD
            ((get_ordering_index [1, -2, 3, -4, 5] false false).index_sort.getD 1 0) 0
          ≤ [(1 : ℚ), -2, 3, -4, 5].getD
            ((get_ordering_index [1, -2, 3, -4, 5] false false).index_sort.getD 0 0) 0
      else
        [(1 : ℚ), -2, 3, -4, 5].getD
            ((get_ordering_index [1, -2, 3, -4, 5] false false).index_sort.getD 0 0) 0
          ≤ [(1 : ℚ), -2, 3, -4, 5].getD
            ((get_ordering_index [1, -2, 3, -4, 5] false false).index_sort.getD 1 0) 0) ∧
    ([(1 : ℚ), -2, 3, -4, 5].getD
        ((get_ordering_index [1, -2, 3, -4, 5] false false).index_sort.getD 0 0) 0
      = [(1 : ℚ), -2, 3, -4, 5].getD
        ((get_ordering_index [1, -2, 3, -4, 5] false false).index_sort.getD 1 0) 0 →
      (get_ordering_index [1, -2, 3, -4, 5] false false).index_sort.getD 0 0
        < (get_ordering_index [1, -2, 3, -4, 5] false false).index_sort.getD 1 0) :=
  C6_ranking [1, -2, 3, -4, 5] false 0 1 (by decide) (by decide)

/-- C7 counterexample: the claim states that mlr_beta fails on a matrix with
fewer than 2 rows. A non-empty matrix of exactly one row passes the only
assert of the source, the non-emptiness check, and the least-squares solve
over zero independent variables returns the empty coefficient vector: the call
does not fail. -/
theorem C7_mlr_beta_counterexample :
    Mlr.mlr_beta [[1, 2]] = some [] ∧ Mlr.mlr_beta [[1, 2]] ≠ none := by
  have h : Mlr.mlr_beta [[1, 2]] = some [] := by
    norm_num [Mlr.mlr_beta, Mlr.leastSquares, Mlr.gelim, Mlr.gelimAux,
      Mlr.pivotIdx, Mlr.dot, matIsEmpty, nrows, ncols, row0]
  exact ⟨h, by rw [h]; exact Option.noConfusion⟩

/-- C7 as amended: mlr_beta fails exactly when the input matrix is empty
(no rows or no columns), and every successful call returns one coefficient per
independent variable, a vector of length nrows - 1, which for a one-row matrix
is the empty vector rather than a failure. -/
theorem C7_mlr_beta_amended (data : Mat) :
    (Mlr.mlr_beta data = none ↔ matIsEmpty data) ∧
    (∀ bs, Mlr.mlr_beta data = some bs → bs.length = nrows data - 1) :=
  ⟨Mlr.mlr_beta_none_iff data, fun _ h => Mlr.mlr_beta_length data h⟩

/-- C7 witness: the amended statement at the two-row example of the spec,
which yields exactly one coefficient. -/
theorem C7_mlr_beta_amended_witness :
    Mlr.mlr_beta [[1, 2, 3, 4, 5], [21/10, 16/5, 41/10, 26/5, 59/10]]
      = some [7110/9331] ∧
    ([(7110 : ℚ)/9331] : List ℚ).length
      = nrows [[(1 : ℚ), 2, 3, 4, 5], [21/10, 16/5, 41/10, 26/5, 59/10]] - 1 := by
  have h : Mlr.mlr_beta [[1, 2, 3, 4, 5], [21/10, 16/5, 41/10, 26/5, 59/10]]
      = some [7110/9331] := by
    norm_num [Mlr.mlr_beta, Mlr.leastSquares, Mlr.gelim, Mlr.gelimAux,
      Mlr.pivotIdx, Mlr.dot, matIsEmpty, nrows, ncols, row0]
  exact ⟨h,
    (C7_mlr_beta_amended [[1, 2, 3, 4, 5], [21/10, 16/5, 41/10, 26/5, 59/10]]).2 _ h⟩

/-- C8: both calculate_dists variants fail exactly when a precondition is
violated: the result is none precisely when values1 is empty, values2 is
empty, or the dimensions differ, and in every other case a vector is
produced. The source asserts only non-emptiness of values1 and dimension
equality, but an empty values2 with a non-empty values1 always has a
different dimension, so the two conditions coincide. -/
theorem C8_calculate_dists_fails_iff (values1 values2 : Mat) (absolute : Bool) :
    (VectorFns.calculate_dists values1 values2 absolute = none ↔
      (matIsEmpty values1 ∨ matIsEmpty values2 ∨ matDim values1 ≠ matDim values2)) ∧
    (CalcDistsDP.calculate_dists values1 values2 absolute = none ↔
      (matIsEmpty values1 ∨ matIsEmpty values2 ∨ matDim values1 ≠ matDim values2)) :=
  ⟨VectorFns.calculate_dists_none_iff values1 values2 absolute,
    CalcDistsDP.dp_calculate_dists_none_iff values1 values2 absolute⟩

/-- C9: every successful readfile call returns an index vector and a value
vector of equal length; the values are sorted non-decreasingly; the index
vector is a permutation of 0..n-1; and entry p of the index vector records the
original position of the p-th sorted value among the parsed input values. -/
theorem C9_readfile_sorted (vals : List ℚ) (nentries : ℕ) (idx : List ℕ)
    (out : List ℚ) (p : ℕ)
    (h : ReadWriteFile.readfile vals nentries = some (idx, out))
    (hp : p < out.length) :
    idx.length = out.length ∧
    List.Sorted (fun a b => a ≤ b) out ∧
    idx.Perm (List.range (vals.take nentries).length) ∧
    (vals.take nentries).getD (idx.getD p 0) 0 = out.getD p 0 := by
  by_cases hne : nentries = 0
  · rw [ReadWriteFile.readfile, if_pos hne] at h
    exact Option.noConfusion h
  · rw [ReadWriteFile.readfile, if_neg hne] at h
    have h2 := Option.some.inj h
    have hidx : idx = (sortedPairs false false (vals.take nentries)).map Prod.fst :=
      (congrArg Prod.fst h2).symm
    have hout : out = (sortedPairs false false (vals.take nentries)).map Prod.snd :=
      (congrArg Prod.snd h2).symm
    subst hidx
    subst hout
    have hplen : p < (vals.take nentries).length := by
      rw [List.length_map, length_sortedPairs] at hp
      exact hp
    have hmono : ∀ (a b : ℕ × ℚ), oiRel false false a b → a.2 ≤ b.2 := by
      intro a b hab
      rcases hab with hlt | ⟨heq, _⟩
      · rw [if_neg (by simp : ¬ (false = true))] at hlt
        exact le_of_lt (by simpa [sortKey] using hlt)
      · exact le_of_eq (by simpa [sortKey] using heq)
    refine ⟨by rw [List.length_map, List.length_map], ?_,
      index_sort_perm_range false false (vals.take nentries), ?_⟩
    · exact List.Pairwise.map Prod.snd hmono
        (sortedPairs_sorted false false (vals.take nentries))
    · have hv := index_sort_vals_getD false false (vals.take nentries) hplen
      have hsp : p < (sortedPairs false false (vals.take nentries)).length := by
        rw [length_sortedPairs]
        exact hplen
      have hmapsnd : ((sortedPairs false false (vals.take nentries)).map Prod.snd).getD p 0
          = ((sortedPairs false false (vals.take nentries)).getD p (0, 0)).2 := by
        simp only [List.getD_eq_getElem?_getD, List.getElem?_map,
          List.getElem?_eq_getElem hsp, Option.map_some', Option.getD_some]
      rw [show ((sortedPairs false false (vals.take nentries)).map Prod.fst)
            = index_sort false false (vals.take nentries) from rfl, hv, hmapsnd]

/-- C9 witness: the readfile statement at a concrete parsed sequence, at
sorted position 0. -/
theorem C9_readfile_sorted_witness :
    ([1, 3, 2, 0] : List ℕ).length = ([(1 : ℚ), 1, 2, 3] : List ℚ).length ∧
    List.Sorted (fun a b => a ≤ b) ([(1 : ℚ), 1, 2, 3] : List ℚ) ∧
    ([1, 3, 2, 0] : List ℕ).Perm
      (List.range (([(3 : ℚ), 1, 2, 1] : List ℚ).take 10).length) ∧
    (([(3 : ℚ), 1, 2, 1] : List ℚ).take 10).getD (([1, 3, 2, 0] : List ℕ).getD 0 0) 0
      = ([(1 : ℚ), 1, 2, 3] : List ℚ).getD 0 0 :=
  C9_readfile_sorted [3, 1, 2, 1] 10 [1, 3, 2, 0] [1, 1, 2, 3] 0
    (by norm_num [ReadWriteFile.readfile, sortedPairs, List.insertionSort,
      List.orderedInsert, oiRel, sortKey, List.enum, List.enumFrom, List.take])
    (by norm_num)

/-- C10: for same-dimension non-empty inputs, every entry of the results
vector of the greedy matching loop is filled with some index before the
unwrap, and the chosen target indices are pairwise distinct observation
indices of the second matrix, so the matching is injective and the unwrap
never panics. -/
theorem C10_greedy_matching_total (values1 values2 : Mat)
    (hdim : matDim values1 = matDim values2) (hne : ¬ matIsEmpty values1) :
    (∀ r ∈ (VectorFns.greedyMatch values1 values2).2, r.isSome = true) ∧
    (VectorFns.greedyMatch values1 values2).1.Nodup ∧
    (∀ u ∈ (VectorFns.greedyMatch values1 values2).1, u < ncols values1) := by
  obtain ⟨hnd, hlen, hsome, hub⟩ := VectorFns.greedyMatch_spec values1 values2
  refine ⟨?_, hnd, hub⟩
  intro r hr
  obtain ⟨i, hi, hir⟩ := List.mem_iff_getElem.mp hr
  obtain ⟨v, hv⟩ := hsome i (by rwa [hlen] at hi)
  rw [List.getElem?_eq_getElem hi, hir] at hv
  cases hv
  rfl

/-- C10 witness: the matching totality statement at the example input of the
module tests. -/
theorem C10_greedy_matching_total_witness :
    (∀ r ∈ (VectorFns.greedyMatch [[1, 2, 4, 5]] [[7, 9, 3, 2]]).2, r.isSome = true) ∧
    (VectorFns.greedyMatch [[1, 2, 4, 5]] [[7, 9, 3, 2]]).1.Nodup ∧
    (∀ u ∈ (VectorFns.greedyMatch [[1, 2, 4, 5]] [[7, 9, 3, 2]]).1,
      u < ncols [[(1 : ℚ), 2, 4, 5]]) :=
  C10_greedy_matching_total [[1, 2, 4, 5]] [[7, 9, 3, 2]] (by decide) (by decide)

end UAMut
